import Mathlib

/-!
# Animating tesseract: the geometric animation kernel of `tesseract.cpp`

A shallow embedding of the scalar kernel of `src/tesseract.cpp`.

* C `double`/`float` values are modelled as elements of an arbitrary linearly ordered field
  `α` (exact arithmetic: rounding and the `double → float` narrowing of the vertex array are not
  modelled).  Every definition is computable at `α = ℚ`; theorems that need `sin`, `sqrt` or
  `π` are stated at `α = ℝ`.
* The C library functions `sin`, `sqrt` and the constant `M_PI` are not part of the source file;
  the definitions that call them take them as parameters (`sin`, `sqrt`, `pi`) and the theorems
  instantiate them with `Real.sin`, `Real.sqrt`, `Real.pi`.
* Decimal literals of the source are written as fractions (`0.5 = 1/2`, `0.25 = 1/4`, ...).
-/

namespace Tesseract

variable {α : Type} [LinearOrderedField α]

/-! ## Constants -/

/-- Outer cube half-extent, `#define CUBE_SIZE_A 0.5f`. -/
def CUBE_SIZE_A : α := 1 / 2

/-- Inner cube half-extent, `#define CUBE_SIZE_B 0.2f`. -/
def CUBE_SIZE_B : α := 2 / 10

/-! ## Utils -/

/-- Simple transition, `#define transit_s(from, to, k) ((from) + ((to) - (from)) * (k))`. -/
def transit_s (from_ to_ k : α) : α :=
  from_ + (to_ - from_) * k

/-- Transition with extra `x` value,
`#define transit_x(from, to, k, x) ((from) + (x) + ((to) - (x) - (from)) * (k))`. -/
def transit_x (from_ to_ k x : α) : α :=
  from_ + x + (to_ - x - from_) * k

/-- Trigonometric value to scale, `#define trigonometric_scale(h) (((h) + 1.0) / 2.0)`. -/
def trigonometric_scale (h : α) : α :=
  (h + 1) / 2

/-! ## Easings -/

/-- Quadratic in-out easing `ease_quad_in_out`: `2 * t * t` when `t < 0.5`, otherwise
`-2 * t * t + 4 * t - 1`. -/
def ease_quad_in_out (t : α) : α :=
  if t < 1 / 2 then
    2 * t * t
  else
    -2 * t * t + 4 * t - 1

/-- Circular in-out easing `ease_circular_in_out`: `0.5 * (1 - sqrt(1 - 4 * t * t))` when
`t < 0.5`, otherwise `0.5 * (sqrt(-(2 * t - 3) * (2 * t - 1)) + 1)`.  The library `sqrt` is a
parameter. -/
def ease_circular_in_out (sqrt : α → α) (t : α) : α :=
  if t < 1 / 2 then
    (1 / 2) * (1 - sqrt (1 - 4 * t * t))
  else
    (1 / 2) * (sqrt ((-(2 * t - 3)) * (2 * t - 1)) + 1)

/-! ## Cube params -/

/-- The three out-parameters `*k1`, `*k2`, `*x` of `set_parameters`. -/
structure Parameters (α : Type) where
  k1 : α
  k2 : α
  x : α

/-- The constant `static float d = -(CUBE_SIZE_A - CUBE_SIZE_B) / 2.0;` of `set_parameters`. -/
def set_parameters.d : α := (-(CUBE_SIZE_A - CUBE_SIZE_B)) / 2

/-- The function `set_parameters(t, &k1, &k2, &x)`.  The library `sin` and `M_PI` are parameters. -/
def set_parameters (sin : α → α) (pi : α) (t : α) : Parameters α :=
  let t := ease_quad_in_out t
  let k1 := trigonometric_scale (sin (pi * t - pi / 2))
  if t < 1 / 4 then
    { k1 := k1, k2 := 0, x := set_parameters.d * t * 4 }
  else
    { k1 := k1
      k2 := trigonometric_scale (sin ((pi + 1) * (t - 1 / 4) - pi / 2))
      x := set_parameters.d }

/-! ## Renderer -/

/-- The local array `float vertices[16][3]` of `render_tesseract`, as a function of the cube
half-extents `a`, `b` and of the parameters `k1`, `k2`, `x`. -/
def vertices (a b k1 k2 x : α) : Fin 16 → α × α × α :=
  ![ /- A0 -> B0 -/ (transit_s a b k1, transit_s a b k1, transit_s a b k1),
     /- B0 -> B4 -/ (transit_x b (-b) k2 x, b, b),
     /- A1 -> B1 -/ (transit_s a b k1, transit_s a b k1, transit_s (-a) (-b) k1),
     /- B1 -> B5 -/ (transit_x b (-b) k2 x, b, -b),
     /- A2 -> B2 -/ (transit_s a b k1, transit_s (-a) (-b) k1, transit_s a b k1),
     /- B2 -> B6 -/ (transit_x b (-b) k2 x, -b, b),
     /- A3 -> B3 -/ (transit_s a b k1, transit_s (-a) (-b) k1, transit_s (-a) (-b) k1),
     /- B3 -> B7 -/ (transit_x b (-b) k2 x, -b, -b),
     /- A4 -> A0 -/ (transit_s (-a) a k1, a, a),
     /- B4 -> A4 -/ (transit_x (-b) (-a) k2 x, transit_s b a k2, transit_s b a k2),
     /- A5 -> A1 -/ (transit_s (-a) a k1, a, -a),
     /- B5 -> A5 -/ (transit_x (-b) (-a) k2 x, transit_s b a k2, transit_s (-b) (-a) k2),
     /- A6 -> A2 -/ (transit_s (-a) a k1, -a, a),
     /- B6 -> A6 -/ (transit_x (-b) (-a) k2 x, transit_s (-b) (-a) k2, transit_s b a k2),
     /- A7 -> A3 -/ (transit_s (-a) a k1, -a, -a),
     /- B7 -> A7 -/ (transit_x (-b) (-a) k2 x, transit_s (-b) (-a) k2,
                      transit_s (-b) (-a) k2) ]

/-- The pairs written in the initializer of `static int edges[34][2]`, in source order. -/
def edges_initializer : List (Nat × Nat) :=
  [ (0, 1), (0, 2), (0, 4), (0, 8),
    (1, 3), (1, 5), (1, 9),
    (2, 3), (2, 6), (2, 10),
    (3, 7), (3, 11),
    (4, 5), (4, 6), (4, 12),
    (5, 7), (5, 13),
    (6, 7), (6, 14),
    (7, 15),
    (8, 9), (8, 10), (8, 12),
    (9, 11), (9, 13),
    (10, 11), (10, 14),
    (11, 15),
    (12, 13), (12, 14),
    (13, 15),
    (14, 15) ]

/-- The array `static int edges[34][2]`: the declared length is 34, the rows the initializer
does not list are zero-initialised (C++ aggregate initialisation of a static array). -/
def edges : List (Nat × Nat) :=
  edges_initializer ++ List.replicate (34 - edges_initializer.length) (0, 0)

/-- The row `edges[i]` read by the draw loop (`(0, 0)` outside the array, never read). -/
def edges_row (i : Nat) : Nat × Nat :=
  edges.getD i (0, 0)

/-- The draw loop `for (i = 0; i < 34; ++i)`: the index pairs `(edges[i][0], edges[i][1])`
handed to `glVertex3fv`, in drawing order. -/
def drawn_pairs : List (Nat × Nat) :=
  (List.range 34).map edges_row

/-! ## Specification-side vocabulary for the geometry claims -/

/-- The rest configuration `k1 = 0`, `k2 = 0`, `x = 0` of the vertex array. -/
def rest_vertices (a b : α) : Fin 16 → α × α × α :=
  vertices a b 0 0 0

/-- Sign `+1` (`true`) or `-1` (`false`) applied to a half-extent. -/
def signed (s : Bool) (c : α) : α :=
  if s then c else -c

/-- The corner `(sx·c, sy·c, sz·c)` of the cube of half-extent `c`. -/
def corner (c : α) (s : Bool × Bool × Bool) : α × α × α :=
  (signed s.1 c, signed s.2.1 c, signed s.2.2 c)

/-- All eight sign triples. -/
def sign_triples : List (Bool × Bool × Bool) :=
  [ (true, true, true), (true, true, false), (true, false, true), (true, false, false),
    (false, true, true), (false, true, false), (false, false, true), (false, false, false) ]

/-- Two entries denote the same unordered pair of indices. -/
def same_unordered (e f : Nat × Nat) : Bool :=
  (e.1 == f.1 && e.2 == f.2) || (e.1 == f.2 && e.2 == f.1)

/-- Some row of the list is a self-loop. -/
def has_self_loop (l : List (Nat × Nat)) : Bool :=
  l.any fun e => e.1 == e.2

/-- Two rows at different positions of the list are the same unordered pair. -/
def has_duplicate (l : List (Nat × Nat)) : Bool :=
  (List.range l.length).any fun i =>
    (List.range l.length).any fun j =>
      i != j && same_unordered (l.getD i (0, 0)) (l.getD j (0, 0))

/-- Every vertex index `0..15` is an endpoint of some row of the list. -/
def covers_all_vertices (l : List (Nat × Nat)) : Bool :=
  (List.range 16).all fun v => l.any fun e => e.1 == v || e.2 == v

/-- The point `p` is a corner `(±c, ±c, ±c)` of the cube of half-extent `c`. -/
def is_corner (c : α) (p : α × α × α) : Prop :=
  ∃ s : Bool × Bool × Bool, p = corner c s

instance is_corner.decidable (c : α) (p : α × α × α) : Decidable (is_corner c p) := by
  unfold is_corner; infer_instance

/-- The points `p` and `q` are the same logical corner at two nesting depths: `p` is the corner
of the outer (`±a`) cube and `q` the corner of the inner (`±b`) cube with the same signs. -/
def same_corner_two_depths (a b : α) (p q : α × α × α) : Prop :=
  ∃ s : Bool × Bool × Bool, p = corner a s ∧ q = corner b s

instance same_corner_two_depths.decidable (a b : α) (p q : α × α × α) :
    Decidable (same_corner_two_depths a b p q) := by
  unfold same_corner_two_depths; infer_instance

/-- The points `p` and `q` differ in the sign of exactly one coordinate (that coordinate is
negated and really changes, the other two are equal). -/
def one_sign_flip (p q : α × α × α) : Prop :=
  (q.1 = -p.1 ∧ q.1 ≠ p.1 ∧ q.2.1 = p.2.1 ∧ q.2.2 = p.2.2) ∨
  (q.1 = p.1 ∧ q.2.1 = -p.2.1 ∧ q.2.1 ≠ p.2.1 ∧ q.2.2 = p.2.2) ∨
  (q.1 = p.1 ∧ q.2.1 = p.2.1 ∧ q.2.2 = -p.2.2 ∧ q.2.2 ≠ p.2.2)

instance one_sign_flip.decidable (p q : α × α × α) : Decidable (one_sign_flip p q) := by
  unfold one_sign_flip; infer_instance

/-- An edge of the outer cube: two `±a` corners differing in the sign of one coordinate. -/
def outer_edge (a : α) (p q : α × α × α) : Prop :=
  is_corner a p ∧ is_corner a q ∧ one_sign_flip p q

instance outer_edge.decidable (a : α) (p q : α × α × α) : Decidable (outer_edge a p q) := by
  unfold outer_edge; infer_instance

/-- An edge of the inner cube: two `±b` corners differing in the sign of one coordinate. -/
def inner_edge (b : α) (p q : α × α × α) : Prop :=
  is_corner b p ∧ is_corner b q ∧ one_sign_flip p q

instance inner_edge.decidable (b : α) (p q : α × α × α) : Decidable (inner_edge b p q) := by
  unfold inner_edge; infer_instance

/-- A connecting edge: an outer corner and the inner corner with the same three signs, in
either order. -/
def connecting_edge (a b : α) (p q : α × α × α) : Prop :=
  same_corner_two_depths a b p q ∨ same_corner_two_depths a b q p

instance connecting_edge.decidable (a b : α) (p q : α × α × α) :
    Decidable (connecting_edge a b p q) := by
  unfold connecting_edge; infer_instance

/-- The wireframe of the nested-cube tesseract: an outer edge, an inner edge or a connecting
edge. -/
def wireframe_adjacent (a b : α) (p q : α × α × α) : Prop :=
  outer_edge a p q ∨ inner_edge b p q ∨ connecting_edge a b p q

instance wireframe_adjacent.decidable (a b : α) (p q : α × α × α) :
    Decidable (wireframe_adjacent a b p q) := by
  unfold wireframe_adjacent; infer_instance

/-- The vertex indices `i` and `j` are joined by a row of `edges` (in either order). -/
def joined (i j : Fin 16) : Prop :=
  (i.val, j.val) ∈ edges ∨ (j.val, i.val) ∈ edges

instance joined.decidable (i j : Fin 16) : Decidable (joined i j) := by
  unfold joined; infer_instance

/-- The rest position of the vertex a row of `edges` names (`vertices[v]` with `v = edges[i][j]`,
all entries of the table are in `0..15`). -/
def rest_at (a b : α) (v : Nat) : α × α × α :=
  rest_vertices a b (Fin.ofNat v)

/-- The rest configuration written out: row `i` is the value of row `i` of `vertices` at
`k1 = 0`, `k2 = 0`, `x = 0` (proved below, `rest_vertices_eq`). -/
def rest_table (a b : α) : Fin 16 → α × α × α :=
  ![ (a, a, a), (b, b, b), (a, a, -a), (b, b, -b),
     (a, -a, a), (b, -b, b), (a, -a, -a), (b, -b, -b),
     (-a, a, a), (-b, b, b), (-a, a, -a), (-b, b, -b),
     (-a, -a, a), (-b, -b, b), (-a, -a, -a), (-b, -b, -b) ]

/-- Interleaving of two lists: `x₀, y₀, x₁, y₁, ...`. -/
def interleave {β : Type} : List β → List β → List β
  | x :: xs, y :: ys => x :: y :: interleave xs ys
  | _, _ => []

/-! ## Animation controllers -/

/-- Per-frame advance of the transformation clock, `#define TRANSFORMATION_SPEED 0.004`. -/
def TRANSFORMATION_SPEED : α := 4 / 1000

/-- Per-frame advance of the rotation clock, `#define ROTATION_SPEED 0.0017`. -/
def ROTATION_SPEED : α := 17 / 10000

/-- The three file-scope variables `t_transformation`, `t_rotation` and `animation`. -/
structure AnimationState (α : Type) where
  t_transformation : α
  t_rotation : α
  animation : Bool

/-- The state at program start: `t_transformation = 0.0`, `t_rotation = 0.0`,
`animation = true`. -/
def initial_state : AnimationState α :=
  { t_transformation := 0, t_rotation := 0, animation := true }

/-- Truncation toward zero of a quotient, as the C library `fmod` takes it. -/
def trunc_toward_zero [FloorRing α] (q : α) : Int :=
  if 0 ≤ q then Int.floor q else Int.ceil q

/-- The C library function `fmod(x, y)` (not part of the source file), with the semantics of the
C standard: `x - n * y` where `n` is `x / y` truncated toward zero, so that the result carries
the sign of `x` and is smaller than `y` in magnitude.  (`y = 0`, which the source never passes,
gives `x` here.) -/
def fmod [FloorRing α] (x y : α) : α :=
  x - (trunc_toward_zero (x / y) : α) * y

/-- The function `step_animation(dir)`: both clocks advance by `dir` times their speed and are
wrapped by `fmod(1.0 + ..., 1.0)`; the flag `animation` is not written. -/
def step_animation [FloorRing α] (dir : Int) (s : AnimationState α) : AnimationState α :=
  { t_transformation := fmod (1 + s.t_transformation + (dir : α) * TRANSFORMATION_SPEED) 1
    t_rotation := fmod (1 + s.t_rotation + (dir : α) * ROTATION_SPEED) 1
    animation := s.animation }

/-- The function `toggle_animation()`: `animation = !animation;`. -/
def toggle_animation (s : AnimationState α) : AnimationState α :=
  { t_transformation := s.t_transformation
    t_rotation := s.t_rotation
    animation := !s.animation }

/-- The argument handed to `sqrt` by `ease_circular_in_out(t)`, on the branch `t` takes. -/
def sqrt_argument (t : α) : α :=
  if t < 1 / 2 then 1 - 4 * t * t else (-(2 * t - 3)) * (2 * t - 1)

/-- The argument handed to `sin` for `k2` by `set_parameters`, as a function of the eased value
`t′` (second branch, `t′ ≥ 0.25`). -/
def k2_sin_argument (pi t' : α) : α :=
  (pi + 1) * (t' - 1 / 4) - pi / 2

/-- The end pose of the morph: the vertex array at `k1 = 1`, `k2 = 1`. -/
def end_vertices (a b x : α) : Fin 16 → α × α × α :=
  vertices a b 1 1 x

/-- The relabelling `σ` of the vertex indices: `i + 1` for even `i < 8`, `i + 8` for odd `i < 8`,
`i - 8` for even `i ≥ 8`, `i - 1` for odd `i ≥ 8`. -/
def relabel (i : Fin 16) : Fin 16 :=
  if i.val < 8 then
    if i.val % 2 = 0 then Fin.ofNat (i.val + 1) else Fin.ofNat (i.val + 8)
  else
    if i.val % 2 = 0 then Fin.ofNat (i.val - 8) else Fin.ofNat (i.val - 1)

/-- The line segments drawn for the edges that join distinct vertices, as pairs of end points,
when vertex `i` sits at `pos i`. -/
def drawn_segments (pos : Fin 16 → α × α × α) : Set ((α × α × α) × (α × α × α)) :=
  { seg | ∃ i j : Fin 16, i ≠ j ∧ joined i j ∧ seg = (pos i, pos j) }

/-- The value `y` is the unique value in `[0, 1)` that differs from `v` by an integer. -/
def is_wrap_of (v y : α) : Prop :=
  (0 ≤ y ∧ y < 1) ∧ (∃ n : Int, y = v + (n : α)) ∧
  ∀ z : α, 0 ≤ z → z < 1 → (∃ n : Int, z = v + (n : α)) → z = y

theorem AnimationState.eq_of_fields {β : Type} (s u : AnimationState β)
    (h1 : s.t_transformation = u.t_transformation) (h2 : s.t_rotation = u.t_rotation)
    (h3 : s.animation = u.animation) : s = u := by
  cases s; cases u; simp_all

/-! ## Theorems -/

/-- C1 (evaluation of the code): the edge table has 34 rows, of which the initializer gives
only 32; rows 32 and 33 are zero-initialised, so the draw loop visits the self-loop `(0, 0)`
twice: the table has a self-loop and a duplicated unordered pair.  The 32 initialised rows
alone have neither, and every vertex index `0..15` is an endpoint of some row. -/
theorem edges_trailing_rows_degenerate :
    edges.length = 34 ∧ edges_initializer.length = 32 ∧ drawn_pairs = edges ∧
    edges_row 32 = (0, 0) ∧ edges_row 33 = (0, 0) ∧
    has_self_loop drawn_pairs = true ∧ has_duplicate drawn_pairs = true ∧
    covers_all_vertices drawn_pairs = true ∧
    has_self_loop edges_initializer = false ∧ has_duplicate edges_initializer = false ∧
    covers_all_vertices edges_initializer = true := by
  decide

/-! ### Geometry at rest -/

theorem interleave_perm {β : Type} :
    ∀ l₁ l₂ : List β, l₁.length = l₂.length → (interleave l₁ l₂).Perm (l₁ ++ l₂)
  | [], [], _ => by simp [interleave]
  | [], _ :: _, h => by simp at h
  | _ :: _, [], h => by simp at h
  | x :: xs, y :: ys, h => by
      have ih := interleave_perm xs ys (by simpa using h)
      have h1 : (x :: y :: interleave xs ys).Perm (x :: y :: (xs ++ ys)) :=
        (ih.cons y).cons x
      have h2 : (y :: (xs ++ ys)).Perm (xs ++ y :: ys) := List.perm_middle.symm
      simpa [interleave] using h1.trans (h2.cons x)

theorem signed_injective {c : α} (hc : c ≠ 0) : Function.Injective fun s : Bool => signed s c := by
  intro s s' h
  have hne : c ≠ -c := fun e => hc (by linarith)
  have hne' : -c ≠ c := fun e => hc (by linarith)
  cases s <;> cases s' <;> simp_all [signed]

theorem corner_injective {c : α} (hc : c ≠ 0) : Function.Injective (corner c) := by
  rintro ⟨s1, s2, s3⟩ ⟨t1, t2, t3⟩ h
  simp only [corner, Prod.mk.injEq] at h
  obtain ⟨h1, h2, h3⟩ := h
  rw [signed_injective hc h1, signed_injective hc h2, signed_injective hc h3]

theorem rest_vertices_eq (a b : α) : rest_vertices a b = rest_table a b := by
  simp [rest_vertices, rest_table, vertices, transit_s, transit_x]

theorem rest_vertices_eq_interleave (a b : α) :
    List.ofFn (rest_vertices a b) =
      interleave (sign_triples.map (corner a)) (sign_triples.map (corner b)) := by
  simp [List.ofFn_succ, rest_vertices, vertices, sign_triples, corner, signed, interleave,
    transit_s, transit_x, Fin.succ]

/-- C2: for every pair of half-extents `a`, `b`, the sixteen rest vertices (`k1 = k2 = x = 0`)
are, up to order, the eight corners `(±a, ±a, ±a)` followed by the eight corners
`(±b, ±b, ±b)`, one vertex per sign triple: the list of sign triples has no repetition and
holds every triple, and for `a ≠ 0` (`b ≠ 0`) the eight outer (inner) corners are eight
distinct points. -/
theorem rest_vertices_are_cube_corners (a b : α) :
    (List.ofFn (rest_vertices a b)).Perm
      (sign_triples.map (corner a) ++ sign_triples.map (corner b)) ∧
    sign_triples.Nodup ∧ (∀ s : Bool × Bool × Bool, s ∈ sign_triples) ∧
    (a ≠ 0 → (sign_triples.map (corner a)).Nodup) ∧
    (b ≠ 0 → (sign_triples.map (corner b)).Nodup) := by
  have hnd : sign_triples.Nodup := by decide
  refine ⟨?_, hnd, by decide, fun ha => hnd.map (corner_injective ha),
    fun hb => hnd.map (corner_injective hb)⟩
  rw [rest_vertices_eq_interleave]
  exact interleave_perm _ _ (by simp)

/-- C2, at the half-extents of the program: the eight outer and the eight inner corners are
pairwise distinct points. -/
theorem rest_vertices_are_cube_corners_witness :
    (1 / 2 : ℚ) ≠ 0 ∧ (sign_triples.map (corner (1 / 2 : ℚ))).Nodup ∧
    (sign_triples.map (corner (1 / 5 : ℚ))).Nodup :=
  ⟨by norm_num,
   (rest_vertices_are_cube_corners (1 / 2 : ℚ) (1 / 5)).2.2.2.1 (by norm_num),
   (rest_vertices_are_cube_corners (1 / 2 : ℚ) (1 / 5)).2.2.2.2 (by norm_num)⟩

/-- C3 (the claim as written fails): at the half-extents of the program, it is not the case
that for every `i` in `0..7` vertex `i` is an outer corner and vertex `i + 8` the inner corner
with the same signs; already `i = 0` fails, vertex 8 being the outer corner `(-a, a, a)`. -/
theorem vertex_i_and_i_add_8_not_same_corner :
    (¬ ∀ i : Fin 8, same_corner_two_depths (CUBE_SIZE_A : ℚ) CUBE_SIZE_B
        (rest_vertices CUBE_SIZE_A CUBE_SIZE_B ⟨i.val, by omega⟩)
        (rest_vertices CUBE_SIZE_A CUBE_SIZE_B ⟨i.val + 8, by omega⟩)) ∧
    ¬ same_corner_two_depths (CUBE_SIZE_A : ℚ) CUBE_SIZE_B
        (rest_vertices CUBE_SIZE_A CUBE_SIZE_B 0) (rest_vertices CUBE_SIZE_A CUBE_SIZE_B 8) ∧
    rest_vertices (CUBE_SIZE_A : ℚ) CUBE_SIZE_B 8 = (-(1 / 2), 1 / 2, 1 / 2) := by
  decide!

/-- C3 (amended): the vertex array interleaves the two cubes.  For every `a`, `b` and every
`j` in `0..7`, at rest vertex `2j` is the outer corner and vertex `2j + 1` the inner corner
with the same three signs (the `j`-th sign triple); and for every `i` in `0..7` vertex `i + 8`
is vertex `i` with the first coordinate negated, at the same nesting depth. -/
theorem vertex_2j_and_2j_add_1_same_corner (a b : α) :
    (∀ j : Fin 8,
      rest_vertices a b ⟨2 * j.val, by omega⟩ = corner a (sign_triples.get ⟨j.val, j.isLt⟩) ∧
      rest_vertices a b ⟨2 * j.val + 1, by omega⟩ = corner b (sign_triples.get ⟨j.val, j.isLt⟩) ∧
      same_corner_two_depths a b (rest_vertices a b ⟨2 * j.val, by omega⟩)
        (rest_vertices a b ⟨2 * j.val + 1, by omega⟩)) ∧
    (∀ i : Fin 8,
      rest_vertices a b ⟨i.val + 8, by omega⟩ =
        (-(rest_vertices a b ⟨i.val, by omega⟩).1, (rest_vertices a b ⟨i.val, by omega⟩).2)) := by
  rw [rest_vertices_eq]
  have h : ∀ j : Fin 8,
      rest_table a b ⟨2 * j.val, by omega⟩ = corner a (sign_triples.get ⟨j.val, j.isLt⟩) ∧
      rest_table a b ⟨2 * j.val + 1, by omega⟩ =
        corner b (sign_triples.get ⟨j.val, j.isLt⟩) := by
    intro j
    fin_cases j <;> exact ⟨rfl, rfl⟩
  refine ⟨fun j => ⟨(h j).1, (h j).2, _, (h j).1, (h j).2⟩, fun i => ?_⟩
  fin_cases i <;> rfl

/-- C4: with the vertices at rest and the half-extents of the program (`a = 0.5`, `b = 0.2`),
two distinct vertex indices are joined by a row of `edges` exactly when their positions are
the ends of an outer-cube edge, of an inner-cube edge, or of a connecting edge; the rows of
`edges` comprise 12 outer edges, 12 inner edges and 8 connecting edges (the two remaining rows
of the 34 are of none of the three kinds). -/
theorem edges_are_nested_cube_wireframe :
    (∀ i j : Fin 16, i ≠ j →
      (joined i j ↔
        wireframe_adjacent (CUBE_SIZE_A : ℚ) CUBE_SIZE_B
          (rest_vertices CUBE_SIZE_A CUBE_SIZE_B i) (rest_vertices CUBE_SIZE_A CUBE_SIZE_B j))) ∧
    edges.countP (fun e => decide (outer_edge (CUBE_SIZE_A : ℚ)
      (rest_at CUBE_SIZE_A CUBE_SIZE_B e.1) (rest_at CUBE_SIZE_A CUBE_SIZE_B e.2))) = 12 ∧
    edges.countP (fun e => decide (inner_edge (CUBE_SIZE_B : ℚ)
      (rest_at CUBE_SIZE_A CUBE_SIZE_B e.1) (rest_at CUBE_SIZE_A CUBE_SIZE_B e.2))) = 12 ∧
    edges.countP (fun e => decide (connecting_edge (CUBE_SIZE_A : ℚ) CUBE_SIZE_B
      (rest_at CUBE_SIZE_A CUBE_SIZE_B e.1) (rest_at CUBE_SIZE_A CUBE_SIZE_B e.2))) = 8 ∧
    edges.countP (fun e => decide (wireframe_adjacent (CUBE_SIZE_A : ℚ) CUBE_SIZE_B
      (rest_at CUBE_SIZE_A CUBE_SIZE_B e.1) (rest_at CUBE_SIZE_A CUBE_SIZE_B e.2))) = 32 := by
  decide!

/-- C4, at the indices 0 and 1: they are joined by the row `{0, 1}` and their rest positions
`(a, a, a)` and `(b, b, b)` are the ends of a connecting edge. -/
theorem edges_are_nested_cube_wireframe_witness :
    (0 : Fin 16) ≠ 1 ∧ joined 0 1 ∧
    wireframe_adjacent (CUBE_SIZE_A : ℚ) CUBE_SIZE_B
      (rest_vertices CUBE_SIZE_A CUBE_SIZE_B 0) (rest_vertices CUBE_SIZE_A CUBE_SIZE_B 1) :=
  ⟨by decide, by decide,
   (edges_are_nested_cube_wireframe.1 0 1 (by decide)).1 (by decide)⟩

/-! ### Easings -/

theorem ease_quad_in_out_nonneg {t : α} (h1 : t ≤ 1) : 0 ≤ ease_quad_in_out t := by
  unfold ease_quad_in_out
  split_ifs with h
  · nlinarith [mul_self_nonneg t]
  · have h2 : 1 / 2 ≤ t := not_lt.mp h
    nlinarith [mul_nonneg (sub_nonneg.mpr h1) (sub_nonneg.mpr h2)]

theorem ease_quad_in_out_le_one {t : α} (h0 : 0 ≤ t) : ease_quad_in_out t ≤ 1 := by
  unfold ease_quad_in_out
  split_ifs with h
  · nlinarith [mul_nonneg h0 h0, mul_nonneg (sub_nonneg.mpr h.le) h0]
  · nlinarith [mul_self_nonneg (1 - t)]

theorem ease_quad_in_out_mono {s t : α} (h0 : 0 ≤ s) (hst : s ≤ t) (h1 : t ≤ 1) :
    ease_quad_in_out s ≤ ease_quad_in_out t := by
  unfold ease_quad_in_out
  split_ifs with hs ht ht
  · nlinarith [mul_nonneg (sub_nonneg.mpr hst) h0, mul_nonneg (sub_nonneg.mpr hst) (h0.trans hst)]
  · have h2 : 1 / 2 ≤ t := not_lt.mp ht
    nlinarith [mul_nonneg h0 (sub_nonneg.mpr hs.le),
      mul_nonneg (sub_nonneg.mpr h1) (sub_nonneg.mpr h2)]
  · exact absurd (lt_of_le_of_lt hst ht) hs
  · nlinarith [mul_nonneg (sub_nonneg.mpr hst) (sub_nonneg.mpr h1),
      mul_nonneg (sub_nonneg.mpr hst) (sub_nonneg.mpr (hst.trans h1))]

/-- C8: for every `t` in `[0, 1]` the quadratic easing lies in `[0, 1]`, and it is exactly `0`
at `t = 0`, exactly `0.5` at `t = 0.5` and exactly `1` at `t = 1`. -/
theorem ease_quad_in_out_range (t : α) (h0 : 0 ≤ t) (h1 : t ≤ 1) :
    (0 ≤ ease_quad_in_out t ∧ ease_quad_in_out t ≤ 1) ∧
    ease_quad_in_out (0 : α) = 0 ∧ ease_quad_in_out (1 / 2 : α) = 1 / 2 ∧
    ease_quad_in_out (1 : α) = 1 := by
  refine ⟨⟨ease_quad_in_out_nonneg h1, ease_quad_in_out_le_one h0⟩, ?_, ?_, ?_⟩
  · norm_num [ease_quad_in_out]
  · norm_num [ease_quad_in_out]
  · norm_num [ease_quad_in_out]

/-- C8, at `t = 1/4`: the eased value is `1/8`, inside `[0, 1]`. -/
theorem ease_quad_in_out_range_witness :
    ease_quad_in_out (1 / 4 : ℚ) = 1 / 8 ∧
    (0 ≤ ease_quad_in_out (1 / 4 : ℚ) ∧ ease_quad_in_out (1 / 4 : ℚ) ≤ 1) :=
  ⟨by norm_num [ease_quad_in_out],
   (ease_quad_in_out_range (1 / 4 : ℚ) (by norm_num) (by norm_num)).1⟩

theorem ease_circular_radicand_lo {t : ℝ} (h0 : 0 ≤ t) (h : t < 1 / 2) :
    0 ≤ 1 - 4 * t * t ∧ 1 - 4 * t * t ≤ 1 :=
  ⟨by nlinarith [mul_nonneg h0 (sub_nonneg.mpr h.le)], by nlinarith [mul_nonneg h0 h0]⟩

theorem ease_circular_radicand_hi {t : ℝ} (h : 1 / 2 ≤ t) (h1 : t ≤ 1) :
    0 ≤ (-(2 * t - 3)) * (2 * t - 1) ∧ (-(2 * t - 3)) * (2 * t - 1) ≤ 1 :=
  ⟨by nlinarith [mul_nonneg (sub_nonneg.mpr h1) (sub_nonneg.mpr h)],
   by nlinarith [mul_self_nonneg (t - 1)]⟩

theorem ease_circular_in_out_lo {t : ℝ} (h0 : 0 ≤ t) (h : t < 1 / 2) :
    0 ≤ ease_circular_in_out Real.sqrt t ∧ ease_circular_in_out Real.sqrt t ≤ 1 / 2 := by
  have hr := ease_circular_radicand_lo h0 h
  have hs0 : 0 ≤ Real.sqrt (1 - 4 * t * t) := Real.sqrt_nonneg _
  have hs1 : Real.sqrt (1 - 4 * t * t) ≤ 1 := Real.sqrt_le_one.mpr hr.2
  simp only [ease_circular_in_out, if_pos h]
  constructor <;> linarith

theorem ease_circular_in_out_hi {t : ℝ} (h : 1 / 2 ≤ t) (h1 : t ≤ 1) :
    1 / 2 ≤ ease_circular_in_out Real.sqrt t ∧ ease_circular_in_out Real.sqrt t ≤ 1 := by
  have hr := ease_circular_radicand_hi h h1
  have hs0 : 0 ≤ Real.sqrt ((-(2 * t - 3)) * (2 * t - 1)) := Real.sqrt_nonneg _
  have hs1 : Real.sqrt ((-(2 * t - 3)) * (2 * t - 1)) ≤ 1 := Real.sqrt_le_one.mpr hr.2
  simp only [ease_circular_in_out, if_neg (not_lt.mpr h)]
  constructor <;> linarith

/-- C9: for every `t` in `[0, 1]` the circular easing (with the real square root) lies in
`[0, 1]`, and it is exactly `0` at `t = 0`, exactly `0.5` at `t = 0.5` and exactly `1` at
`t = 1`. -/
theorem ease_circular_in_out_range (t : ℝ) (h0 : 0 ≤ t) (h1 : t ≤ 1) :
    (0 ≤ ease_circular_in_out Real.sqrt t ∧ ease_circular_in_out Real.sqrt t ≤ 1) ∧
    ease_circular_in_out Real.sqrt 0 = 0 ∧
    ease_circular_in_out Real.sqrt (1 / 2) = 1 / 2 ∧
    ease_circular_in_out Real.sqrt 1 = 1 := by
  refine ⟨?_, ?_, ?_, ?_⟩
  · rcases lt_or_le t (1 / 2) with h | h
    · have := ease_circular_in_out_lo h0 h
      exact ⟨this.1, by linarith⟩
    · have := ease_circular_in_out_hi h h1
      exact ⟨by linarith, this.2⟩
  · norm_num [ease_circular_in_out]
  · norm_num [ease_circular_in_out]
  · norm_num [ease_circular_in_out]

/-- C9, at `t = 1/2`: the eased value is `1/2`, inside `[0, 1]`. -/
theorem ease_circular_in_out_range_witness :
    (0 : ℝ) ≤ 1 / 2 ∧ (1 / 2 : ℝ) ≤ 1 ∧
    (0 ≤ ease_circular_in_out Real.sqrt (1 / 2) ∧ ease_circular_in_out Real.sqrt (1 / 2) ≤ 1) :=
  ⟨by norm_num, by norm_num,
   (ease_circular_in_out_range (1 / 2) (by norm_num) (by norm_num)).1⟩

theorem ease_circular_in_out_mono {s t : ℝ} (h0 : 0 ≤ s) (hst : s ≤ t) (h1 : t ≤ 1) :
    ease_circular_in_out Real.sqrt s ≤ ease_circular_in_out Real.sqrt t := by
  rcases lt_or_le t (1 / 2) with ht | ht
  · have hs : s < 1 / 2 := lt_of_le_of_lt hst ht
    have hle : 1 - 4 * t * t ≤ 1 - 4 * s * s := by
      nlinarith [mul_nonneg (sub_nonneg.mpr hst) h0,
        mul_nonneg (sub_nonneg.mpr hst) (h0.trans hst)]
    have := Real.sqrt_le_sqrt hle
    simp only [ease_circular_in_out, if_pos hs, if_pos ht]
    linarith
  · rcases lt_or_le s (1 / 2) with hs | hs
    · have := (ease_circular_in_out_lo h0 hs).2
      have := (ease_circular_in_out_hi ht h1).1
      linarith
    · have hle : (-(2 * s - 3)) * (2 * s - 1) ≤ (-(2 * t - 3)) * (2 * t - 1) := by
        nlinarith [mul_nonneg (sub_nonneg.mpr hst) (sub_nonneg.mpr h1),
          mul_nonneg (sub_nonneg.mpr hst) (sub_nonneg.mpr (hst.trans h1))]
      have := Real.sqrt_le_sqrt hle
      simp only [ease_circular_in_out, if_neg (not_lt.mpr hs), if_neg (not_lt.mpr ht)]
      linarith

/-- C10: both easing functions are monotonically non-decreasing on `[0, 1]`, the branch switch
at `t = 0.5` included: for `0 ≤ s ≤ t ≤ 1` the eased value at `s` is at most the one at
`t`. -/
theorem easings_monotone (s t : ℝ) (h0 : 0 ≤ s) (hst : s ≤ t) (h1 : t ≤ 1) :
    ease_quad_in_out s ≤ ease_quad_in_out t ∧
    ease_circular_in_out Real.sqrt s ≤ ease_circular_in_out Real.sqrt t :=
  ⟨ease_quad_in_out_mono h0 hst h1, ease_circular_in_out_mono h0 hst h1⟩

/-- C10, across the branch switch, from `s = 1/4` to `t = 3/4`: the quadratic easing goes from
`1/8` up to `7/8`. -/
theorem easings_monotone_witness :
    ease_quad_in_out (1 / 4 : ℝ) = 1 / 8 ∧ ease_quad_in_out (3 / 4 : ℝ) = 7 / 8 ∧
    ease_quad_in_out (1 / 4 : ℝ) ≤ ease_quad_in_out (3 / 4 : ℝ) ∧
    ease_circular_in_out Real.sqrt (1 / 4) ≤ ease_circular_in_out Real.sqrt (3 / 4) :=
  ⟨by norm_num [ease_quad_in_out], by norm_num [ease_quad_in_out],
   easings_monotone (1 / 4) (3 / 4) (by norm_num) (by norm_num) (by norm_num)⟩

/-! ### Cube params -/

theorem set_parameters.d_eq : (set_parameters.d : α) = -(15 / 100) := by
  norm_num [set_parameters.d, CUBE_SIZE_A, CUBE_SIZE_B]

theorem trigonometric_scale_mem {h : α} (hlo : -1 ≤ h) (hhi : h ≤ 1) :
    0 ≤ trigonometric_scale h ∧ trigonometric_scale h ≤ 1 := by
  unfold trigonometric_scale
  constructor
  · linarith
  · linarith

/-- C5: for every raw progress `t` in `[0, 1)` whose eased value `t′ = ease_quad_in_out t` is
below `0.25`, `set_parameters` returns `k2 = 0` exactly and `x = d·4·t′` with
`d = -(CUBE_SIZE_A - CUBE_SIZE_B)/2 = -0.15` (whatever `sin` and `π` are); this `x` lies in
`(d, 0]`, and it is `0` at `t = 0`, where `t′ = 0`. -/
theorem set_parameters_ramp (sin : α → α) (pi t : α) (_h0 : 0 ≤ t) (h1 : t < 1)
    (h : ease_quad_in_out t < 1 / 4) :
    (set_parameters sin pi t).k2 = 0 ∧
    (set_parameters sin pi t).x = set_parameters.d * 4 * ease_quad_in_out t ∧
    (set_parameters.d : α) = -(15 / 100) ∧
    (set_parameters.d < (set_parameters sin pi t).x ∧ (set_parameters sin pi t).x ≤ 0) ∧
    ease_quad_in_out (0 : α) = 0 ∧ (set_parameters sin pi 0).x = 0 := by
  have h00 : ease_quad_in_out (0 : α) = 0 := by norm_num [ease_quad_in_out]
  have hx : (set_parameters sin pi t).x = set_parameters.d * 4 * ease_quad_in_out t := by
    simp only [set_parameters, if_pos h]
    ring
  have hnn : 0 ≤ ease_quad_in_out t := ease_quad_in_out_nonneg h1.le
  refine ⟨?_, hx, set_parameters.d_eq, ⟨?_, ?_⟩, h00, ?_⟩
  · simp only [set_parameters, if_pos h]
  · rw [hx, set_parameters.d_eq]
    linarith
  · rw [hx, set_parameters.d_eq]
    linarith
  · simp [set_parameters, h00]

/-- C5, at `t = 1/4` with the real sine: the eased value is `1/8 < 1/4`, `k2 = 0` and
`x = d·4·(1/8)`. -/
theorem set_parameters_ramp_witness :
    ease_quad_in_out (1 / 4 : ℝ) < 1 / 4 ∧
    (set_parameters Real.sin Real.pi (1 / 4)).k2 = 0 ∧
    (set_parameters Real.sin Real.pi (1 / 4)).x =
      set_parameters.d * 4 * ease_quad_in_out (1 / 4 : ℝ) :=
  ⟨by norm_num [ease_quad_in_out],
   (set_parameters_ramp Real.sin Real.pi (1 / 4) (by norm_num) (by norm_num)
      (by norm_num [ease_quad_in_out])).1,
   (set_parameters_ramp Real.sin Real.pi (1 / 4) (by norm_num) (by norm_num)
      (by norm_num [ease_quad_in_out])).2.1⟩

/-- C7: for every raw progress `t` in `[0, 1)` both blend coefficients returned by
`set_parameters` (with the real sine) lie in `[0, 1]`; `trigonometric_scale` maps every `h` in
`[-1, 1]`, hence every sine value, into `[0, 1]`. -/
theorem set_parameters_coefficients_in_unit (t : ℝ) (_h0 : 0 ≤ t) (_h1 : t < 1) :
    (0 ≤ (set_parameters Real.sin Real.pi t).k1 ∧ (set_parameters Real.sin Real.pi t).k1 ≤ 1) ∧
    (0 ≤ (set_parameters Real.sin Real.pi t).k2 ∧ (set_parameters Real.sin Real.pi t).k2 ≤ 1) ∧
    (∀ h : ℝ, -1 ≤ h → h ≤ 1 → 0 ≤ trigonometric_scale h ∧ trigonometric_scale h ≤ 1) ∧
    (∀ u : ℝ, 0 ≤ trigonometric_scale (Real.sin u) ∧ trigonometric_scale (Real.sin u) ≤ 1) := by
  have hsin : ∀ u : ℝ, 0 ≤ trigonometric_scale (Real.sin u) ∧
      trigonometric_scale (Real.sin u) ≤ 1 :=
    fun u => trigonometric_scale_mem (Real.neg_one_le_sin u) (Real.sin_le_one u)
  refine ⟨?_, ?_, fun h => trigonometric_scale_mem, hsin⟩
  · simp only [set_parameters]
    split_ifs
    · exact hsin _
    · exact hsin _
  · simp only [set_parameters]
    split_ifs
    · exact ⟨le_refl 0, zero_le_one⟩
    · exact hsin _

/-- C7, at `t = 0` with the real sine: both coefficients are in `[0, 1]`. -/
theorem set_parameters_coefficients_in_unit_witness :
    (0 : ℝ) ≤ 0 ∧ (0 : ℝ) < 1 ∧
    (0 ≤ (set_parameters Real.sin Real.pi 0).k1 ∧ (set_parameters Real.sin Real.pi 0).k1 ≤ 1) ∧
    (0 ≤ (set_parameters Real.sin Real.pi 0).k2 ∧ (set_parameters Real.sin Real.pi 0).k2 ≤ 1) :=
  ⟨le_refl 0, zero_lt_one,
   (set_parameters_coefficients_in_unit 0 (le_refl 0) zero_lt_one).1,
   (set_parameters_coefficients_in_unit 0 (le_refl 0) zero_lt_one).2.1⟩

/-! ### Transition primitives and the toggle -/

/-- C17: endpoint behaviour of the transition primitives, for all `from`, `to`, `x`:
`transit_s` gives `from` at `k = 0` and `to` at `k = 1`; `transit_x` gives `from + x` at
`k = 0` and `to` at `k = 1`, where the offset `x` has no effect. -/
theorem transit_endpoints (from_ to_ x : α) :
    transit_s from_ to_ 0 = from_ ∧ transit_s from_ to_ 1 = to_ ∧
    transit_x from_ to_ 0 x = from_ + x ∧ transit_x from_ to_ 1 x = to_ := by
  refine ⟨?_, ?_, ?_, ?_⟩ <;> simp only [transit_s, transit_x] <;> ring

/-- C16: `toggle_animation` negates the flag and leaves both progress scalars unchanged, and
two consecutive calls give back the whole state. -/
theorem toggle_animation_flips {β : Type} (s : AnimationState β) :
    (toggle_animation s).animation = !s.animation ∧
    (toggle_animation s).t_transformation = s.t_transformation ∧
    (toggle_animation s).t_rotation = s.t_rotation ∧
    toggle_animation (toggle_animation s) = s := by
  cases s
  simp [toggle_animation]

/-- C11: on `[0, 1]` the circular easing never takes the square root of a negative number.
For any `sqrt`, the function applies it to `sqrt_argument t` only; for `0 ≤ t ≤ 1` that
argument is `≥ 0`: it is `1 - 4t²` when `t < 0.5` and `-(2t - 3)(2t - 1)` when `t ≥ 0.5`, both
non-negative on their branch, with the values `1`, `0` and `1` at `t = 0`, `0.5` and `1`. -/
theorem ease_circular_in_out_sqrt_argument_nonneg (t : ℝ) (h0 : 0 ≤ t) (h1 : t ≤ 1) :
    0 ≤ sqrt_argument t ∧
    (∀ sqrt : ℝ → ℝ, ease_circular_in_out sqrt t =
      if t < 1 / 2 then (1 / 2) * (1 - sqrt (sqrt_argument t))
      else (1 / 2) * (sqrt (sqrt_argument t) + 1)) ∧
    (t < 1 / 2 → sqrt_argument t = 1 - 4 * t * t ∧ 0 ≤ 1 - 4 * t * t) ∧
    (1 / 2 ≤ t → sqrt_argument t = (-(2 * t - 3)) * (2 * t - 1) ∧
      0 ≤ (-(2 * t - 3)) * (2 * t - 1)) ∧
    sqrt_argument (0 : ℝ) = 1 ∧ sqrt_argument (1 / 2 : ℝ) = 0 ∧ sqrt_argument (1 : ℝ) = 1 := by
  have hlo : t < 1 / 2 → sqrt_argument t = 1 - 4 * t * t ∧ 0 ≤ 1 - 4 * t * t := fun h =>
    ⟨by simp only [sqrt_argument, if_pos h], (ease_circular_radicand_lo h0 h).1⟩
  have hhi : 1 / 2 ≤ t → sqrt_argument t = (-(2 * t - 3)) * (2 * t - 1) ∧
      0 ≤ (-(2 * t - 3)) * (2 * t - 1) := fun h =>
    ⟨by simp only [sqrt_argument, if_neg (not_lt.mpr h)], (ease_circular_radicand_hi h h1).1⟩
  refine ⟨?_, ?_, hlo, hhi, ?_, ?_, ?_⟩
  · rcases lt_or_le t (1 / 2) with h | h
    · rw [(hlo h).1]; exact (hlo h).2
    · rw [(hhi h).1]; exact (hhi h).2
  · intro sqrt
    simp only [ease_circular_in_out, sqrt_argument]
    split_ifs <;> rfl
  · norm_num [sqrt_argument]
  · norm_num [sqrt_argument]
  · norm_num [sqrt_argument]

/-- C11, at `t = 1/2`, the branch switch: the argument of `sqrt` is `0`. -/
theorem ease_circular_in_out_sqrt_argument_nonneg_witness :
    (0 : ℝ) ≤ 1 / 2 ∧ (1 / 2 : ℝ) ≤ 1 ∧ 0 ≤ sqrt_argument (1 / 2 : ℝ) :=
  ⟨by norm_num, by norm_num,
   (ease_circular_in_out_sqrt_argument_nonneg (1 / 2) (by norm_num) (by norm_num)).1⟩

/-! ### Clocks -/

theorem fmod_one_of_nonneg [FloorRing α] {x : α} (hx : 0 ≤ x) : fmod x 1 = Int.fract x := by
  unfold fmod trunc_toward_zero
  rw [div_one, if_pos hx, mul_one]
  rfl

theorem fmod_one_of_neg [FloorRing α] {x : α} (hx : x < 0) :
    fmod x 1 = x - (Int.ceil x : α) := by
  unfold fmod trunc_toward_zero
  rw [div_one, if_neg (not_le.mpr hx), mul_one]

theorem wrap_eq_fract [FloorRing α] {t d : α} (h : 0 ≤ 1 + t + d) :
    fmod (1 + t + d) 1 = Int.fract (t + d) := by
  rw [fmod_one_of_nonneg h, add_assoc, Int.fract_one_add]

theorem TRANSFORMATION_SPEED_mem : (0 : α) < TRANSFORMATION_SPEED ∧ (TRANSFORMATION_SPEED : α) < 1 := by
  constructor <;> norm_num [TRANSFORMATION_SPEED]

theorem ROTATION_SPEED_mem : (0 : α) < ROTATION_SPEED ∧ (ROTATION_SPEED : α) < 1 := by
  constructor <;> norm_num [ROTATION_SPEED]

theorem step_animation_forward [FloorRing α] (s : AnimationState α)
    (ht : 0 ≤ s.t_transformation) (hr : 0 ≤ s.t_rotation) :
    (step_animation 1 s).t_transformation = Int.fract (s.t_transformation + TRANSFORMATION_SPEED) ∧
    (step_animation 1 s).t_rotation = Int.fract (s.t_rotation + ROTATION_SPEED) := by
  have h1 := (TRANSFORMATION_SPEED_mem (α := α)).1
  have h2 := (ROTATION_SPEED_mem (α := α)).1
  simp only [step_animation, Int.cast_one, one_mul]
  exact ⟨wrap_eq_fract (by linarith), wrap_eq_fract (by linarith)⟩

theorem step_animation_backward [FloorRing α] (s : AnimationState α)
    (ht : 0 ≤ s.t_transformation) (hr : 0 ≤ s.t_rotation) :
    (step_animation (-1) s).t_transformation =
      Int.fract (s.t_transformation - TRANSFORMATION_SPEED) ∧
    (step_animation (-1) s).t_rotation = Int.fract (s.t_rotation - ROTATION_SPEED) := by
  have h1 := (TRANSFORMATION_SPEED_mem (α := α)).2
  have h2 := (ROTATION_SPEED_mem (α := α)).2
  simp only [step_animation, Int.cast_neg, Int.cast_one, neg_mul, one_mul, ← sub_eq_add_neg]
  constructor
  · rw [sub_eq_add_neg, wrap_eq_fract (by linarith), ← sub_eq_add_neg]
  · rw [sub_eq_add_neg, wrap_eq_fract (by linarith), ← sub_eq_add_neg]

theorem fract_unique [FloorRing α] {v y : α} (h0 : 0 ≤ y) (h1 : y < 1)
    (h : ∃ n : Int, y = v + (n : α)) : y = Int.fract v := by
  obtain ⟨n, rfl⟩ := h
  rw [← Int.fract_add_int v n]
  exact (Int.fract_eq_self.mpr ⟨h0, h1⟩).symm

theorem fract_differs_by_int [FloorRing α] (v : α) : ∃ n : Int, Int.fract v = v + (n : α) :=
  ⟨-Int.floor v, by simp [Int.fract, sub_eq_add_neg]⟩

theorem fract_fract_add [FloorRing α] (t c d : α) :
    Int.fract (Int.fract (t + c) + d) = Int.fract (t + (c + d)) := by
  have : Int.fract (t + c) + d = t + (c + d) - (Int.floor (t + c) : α) := by
    rw [Int.fract]; ring
  rw [this, Int.fract_sub_int]

theorem is_wrap_of_fract [FloorRing α] (v : α) : is_wrap_of v (Int.fract v) :=
  ⟨⟨Int.fract_nonneg v, Int.fract_lt_one v⟩, fract_differs_by_int v,
   fun _ h0 h1 h => fract_unique h0 h1 h⟩

/-- C12: for every state whose two progress scalars lie in `[0, 1)` and every `dir` in
`{+1, -1}`, `step_animation dir` leaves the flag `animation` unchanged and sets each scalar to
the unique value in `[0, 1)` that differs from `old + dir·delta` by an integer, with
`delta = 0.004` for the transformation progress and `delta = 0.0017` for the rotation
progress; in particular both scalars are again in `[0, 1)`. -/
theorem step_animation_unit_step [FloorRing α] (s : AnimationState α) (dir : Int)
    (hdir : dir = 1 ∨ dir = -1)
    (ht : 0 ≤ s.t_transformation ∧ s.t_transformation < 1)
    (hr : 0 ≤ s.t_rotation ∧ s.t_rotation < 1) :
    (step_animation dir s).animation = s.animation ∧
    is_wrap_of (s.t_transformation + (dir : α) * (4 / 1000))
      (step_animation dir s).t_transformation ∧
    is_wrap_of (s.t_rotation + (dir : α) * (17 / 10000)) (step_animation dir s).t_rotation ∧
    (0 ≤ (step_animation dir s).t_transformation ∧ (step_animation dir s).t_transformation < 1) ∧
    (0 ≤ (step_animation dir s).t_rotation ∧ (step_animation dir s).t_rotation < 1) := by
  have key : (step_animation dir s).t_transformation =
        Int.fract (s.t_transformation + (dir : α) * (4 / 1000)) ∧
      (step_animation dir s).t_rotation = Int.fract (s.t_rotation + (dir : α) * (17 / 10000)) := by
    rcases hdir with rfl | rfl
    · have := step_animation_forward s ht.1 hr.1
      simpa [TRANSFORMATION_SPEED, ROTATION_SPEED] using this
    · have := step_animation_backward s ht.1 hr.1
      simpa [TRANSFORMATION_SPEED, ROTATION_SPEED, sub_eq_add_neg] using this
  refine ⟨rfl, ?_, ?_, ?_, ?_⟩
  · rw [key.1]; exact is_wrap_of_fract _
  · rw [key.2]; exact is_wrap_of_fract _
  · rw [key.1]; exact ⟨Int.fract_nonneg _, Int.fract_lt_one _⟩
  · rw [key.2]; exact ⟨Int.fract_nonneg _, Int.fract_lt_one _⟩

/-- C12, at the initial state with `dir = -1`: the clocks wrap to `0.996` and `0.9983`. -/
theorem step_animation_unit_step_witness :
    (step_animation (-1) (initial_state : AnimationState ℚ)).t_transformation = 996 / 1000 ∧
    (step_animation (-1) (initial_state : AnimationState ℚ)).t_rotation = 9983 / 10000 ∧
    is_wrap_of ((0 : ℚ) + ((-1 : Int) : ℚ) * (4 / 1000))
      (step_animation (-1) (initial_state : AnimationState ℚ)).t_transformation :=
  ⟨by decide!, by decide!,
   (step_animation_unit_step (initial_state : AnimationState ℚ) (-1) (Or.inr rfl)
      ⟨by decide!, by decide!⟩ ⟨by decide!, by decide!⟩).2.1⟩

/-- C13: for every state whose two progress scalars lie in `[0, 1)`, `step_animation(+1)`
followed by `step_animation(-1)` gives back the state (both scalars exactly, and the flag). -/
theorem step_forward_then_backward [FloorRing α] (s : AnimationState α)
    (ht : 0 ≤ s.t_transformation ∧ s.t_transformation < 1)
    (hr : 0 ≤ s.t_rotation ∧ s.t_rotation < 1) :
    step_animation (-1) (step_animation 1 s) = s := by
  have hf := step_animation_forward s ht.1 hr.1
  have hb := step_animation_backward (step_animation 1 s)
    (hf.1 ▸ Int.fract_nonneg _) (hf.2 ▸ Int.fract_nonneg _)
  have e : ∀ t d : α, 0 ≤ t → t < 1 → Int.fract (Int.fract (t + d) - d) = t := by
    intro t d h0 h1
    have : Int.fract (t + d) - d = t - (Int.floor (t + d) : α) := by
      rw [Int.fract]; ring
    rw [this, Int.fract_sub_int]
    exact Int.fract_eq_self.mpr ⟨h0, h1⟩
  rw [hf.1, e _ _ ht.1 ht.2] at hb
  rw [hf.2, e _ _ hr.1 hr.2] at hb
  exact AnimationState.eq_of_fields _ _ hb.1 hb.2 rfl

/-- C13, within one delta of the wrap point: from `0.999` the forward step wraps to `0.003`
and the backward step returns to `0.999` (rotation: `0.9999`). -/
theorem step_forward_then_backward_witness :
    (step_animation 1 (⟨999 / 1000, 9999 / 10000, true⟩ : AnimationState ℚ)).t_transformation =
      3 / 1000 ∧
    step_animation (-1) (step_animation 1 (⟨999 / 1000, 9999 / 10000, true⟩ : AnimationState ℚ)) =
      ⟨999 / 1000, 9999 / 10000, true⟩ :=
  ⟨by decide!,
   step_forward_then_backward ⟨999 / 1000, 9999 / 10000, true⟩
     ⟨by norm_num, by norm_num⟩ ⟨by norm_num, by norm_num⟩⟩

theorem step_animation_forward_transformation_iterate [FloorRing α] (s : AnimationState α)
    (ht : 0 ≤ s.t_transformation) (n : Nat) :
    ((step_animation 1)^[n + 1] s).t_transformation =
      Int.fract (s.t_transformation + ((n + 1 : Nat) : α) * TRANSFORMATION_SPEED) := by
  have hpos := (TRANSFORMATION_SPEED_mem (α := α)).1
  have step : ∀ u : AnimationState α, 0 ≤ u.t_transformation →
      (step_animation 1 u).t_transformation =
        Int.fract (u.t_transformation + TRANSFORMATION_SPEED) := by
    intro u hu
    simp only [step_animation, Int.cast_one, one_mul]
    exact wrap_eq_fract (by linarith)
  induction n with
  | zero => simpa using step s ht
  | succ k ih =>
    rw [Function.iterate_succ_apply', step _ (ih ▸ Int.fract_nonneg _), ih, fract_fract_add]
    congr 2; push_cast; ring

theorem step_animation_forward_rotation_iterate [FloorRing α] (s : AnimationState α)
    (hr : 0 ≤ s.t_rotation) (n : Nat) :
    ((step_animation 1)^[n + 1] s).t_rotation =
      Int.fract (s.t_rotation + ((n + 1 : Nat) : α) * ROTATION_SPEED) := by
  have hpos := (ROTATION_SPEED_mem (α := α)).1
  have step : ∀ u : AnimationState α, 0 ≤ u.t_rotation →
      (step_animation 1 u).t_rotation = Int.fract (u.t_rotation + ROTATION_SPEED) := by
    intro u hu
    simp only [step_animation, Int.cast_one, one_mul]
    exact wrap_eq_fract (by linarith)
  induction n with
  | zero => simpa using step s hr
  | succ k ih =>
    rw [Function.iterate_succ_apply', step _ (ih ▸ Int.fract_nonneg _), ih, fract_fract_add]
    congr 2; push_cast; ring

/-- C14: for every starting transformation progress in `[0, 1)`, after
`N = 1/TRANSFORMATION_SPEED = 250` consecutive `step_animation(+1)` calls the transformation
progress is the starting value again. -/
theorem transformation_clock_closes [FloorRing α] (s : AnimationState α)
    (ht : 0 ≤ s.t_transformation ∧ s.t_transformation < 1) :
    ((step_animation 1)^[250] s).t_transformation = s.t_transformation ∧
    (1 / TRANSFORMATION_SPEED : α) = 250 := by
  constructor
  · rw [step_animation_forward_transformation_iterate s ht.1 249]
    have : s.t_transformation + ((249 + 1 : Nat) : α) * TRANSFORMATION_SPEED =
        s.t_transformation + ((1 : Int) : α) := by
      norm_num [TRANSFORMATION_SPEED]
    rw [this, Int.fract_add_int]
    exact Int.fract_eq_self.mpr ht
  · norm_num [TRANSFORMATION_SPEED]

/-- C14, from the initial state: after 250 forward steps the transformation progress is `0.0`
again. -/
theorem transformation_clock_closes_witness :
    (initial_state : AnimationState ℚ).t_transformation = 0 ∧
    ((step_animation 1)^[250] (initial_state : AnimationState ℚ)).t_transformation = 0 :=
  ⟨rfl, (transformation_clock_closes (initial_state : AnimationState ℚ)
    ⟨by decide!, by decide!⟩).1⟩

/-- C15 (amended): for every starting rotation progress in `[0, 1)`, `N` consecutive
`step_animation(+1)` calls return the rotation progress to its starting value exactly when `N`
is a multiple of `10000` (the total advance `N · 0.0017` is then a whole number); the clock
first closes after `10000` steps. -/
theorem rotation_clock_closes_iff [FloorRing α] (s : AnimationState α)
    (hr : 0 ≤ s.t_rotation ∧ s.t_rotation < 1) (N : Nat) :
    ((step_animation 1)^[N] s).t_rotation = s.t_rotation ↔ 10000 ∣ N := by
  cases N with
  | zero => simp
  | succ n =>
    rw [step_animation_forward_rotation_iterate s hr.1 n]
    have hself : Int.fract s.t_rotation = s.t_rotation := Int.fract_eq_self.mpr hr
    constructor
    · intro h
      have h' : Int.fract (s.t_rotation + ((n + 1 : Nat) : α) * ROTATION_SPEED) =
          Int.fract s.t_rotation := by rw [hself]; exact h
      obtain ⟨z, hz⟩ := Int.fract_eq_fract.mp h'
      have hz' : ((17 * (n + 1 : Nat) : Int) : α) = ((10000 * z : Int) : α) := by
        have : ((n + 1 : Nat) : α) * ROTATION_SPEED = (z : α) := by linarith
        push_cast
        rw [ROTATION_SPEED] at this
        push_cast at this
        linarith
      have hz'' : (17 * (n + 1 : Nat) : Int) = 10000 * z := Int.cast_injective hz'
      omega
    · rintro ⟨k, hk⟩
      have : s.t_rotation + ((n + 1 : Nat) : α) * ROTATION_SPEED =
          s.t_rotation + ((17 * k : Nat) : α) := by
        rw [hk]; push_cast; norm_num [ROTATION_SPEED]; ring
      rw [this, Int.fract_add_nat]
      exact hself

/-- C15 (amended), from the initial state: after `10000` forward steps the rotation progress is
`0.0` again. -/
theorem rotation_clock_closes_iff_witness :
    ((step_animation 1)^[10000] (initial_state : AnimationState ℚ)).t_rotation = 0 :=
  (rotation_clock_closes_iff (initial_state : AnimationState ℚ)
    ⟨by decide!, by decide!⟩ 10000).mpr (dvd_refl _)

/-- C15 (the claim as written fails): `1/ROTATION_SPEED = 10000/17` is not a whole number, it
lies strictly between `588` and `589`; starting from rotation progress `0`, after `588` forward
steps the rotation progress is `0.9996` and after `589` it is `0.0013`, not `0`. -/
theorem rotation_clock_not_closed_after_inverse_speed :
    (¬ ∃ N : Nat, (N : ℚ) = 1 / ROTATION_SPEED) ∧
    ((588 : ℚ) < 1 / ROTATION_SPEED ∧ (1 / ROTATION_SPEED : ℚ) < 589) ∧
    (initial_state : AnimationState ℚ).t_rotation = 0 ∧
    ((step_animation 1)^[588] (initial_state : AnimationState ℚ)).t_rotation = 9996 / 10000 ∧
    ((step_animation 1)^[589] (initial_state : AnimationState ℚ)).t_rotation = 13 / 10000 := by
  refine ⟨?_, ⟨by norm_num [ROTATION_SPEED], by norm_num [ROTATION_SPEED]⟩, rfl, ?_, ?_⟩
  · rintro ⟨N, hN⟩
    have h : ((N * 17 : Nat) : ℚ) = ((10000 : Nat) : ℚ) := by
      push_cast
      rw [hN]
      norm_num [ROTATION_SPEED]
    have h' : N * 17 = 10000 := Nat.cast_injective h
    omega
  · rw [step_animation_forward_rotation_iterate _ (le_refl _) 587]
    norm_num [initial_state, ROTATION_SPEED, Int.fract]
  · rw [step_animation_forward_rotation_iterate _ (le_refl _) 588]
    norm_num [initial_state, ROTATION_SPEED, Int.fract]

/-- C18 (amended): for every integer `dir ≥ -250` (of any magnitude when positive; in
particular the `+1` and `-1` the program passes) and every state whose two progress scalars
lie in `[0, 1)`, after `step_animation dir` both scalars are again in `[0, 1)`: each is the
unique value in `[0, 1)` differing from `old + dir·delta` by an integer. -/
theorem step_animation_in_range_of_ge [FloorRing α] (s : AnimationState α) (dir : Int)
    (hdir : -250 ≤ dir)
    (ht : 0 ≤ s.t_transformation ∧ s.t_transformation < 1)
    (hr : 0 ≤ s.t_rotation ∧ s.t_rotation < 1) :
    (0 ≤ (step_animation dir s).t_transformation ∧
      (step_animation dir s).t_transformation < 1) ∧
    (0 ≤ (step_animation dir s).t_rotation ∧ (step_animation dir s).t_rotation < 1) ∧
    is_wrap_of (s.t_transformation + (dir : α) * (4 / 1000))
      (step_animation dir s).t_transformation ∧
    is_wrap_of (s.t_rotation + (dir : α) * (17 / 10000)) (step_animation dir s).t_rotation := by
  have hd : (-250 : α) ≤ (dir : α) := by exact_mod_cast hdir
  have h1 : (-1 : α) ≤ (dir : α) * TRANSFORMATION_SPEED := by
    have := mul_le_mul_of_nonneg_right hd (TRANSFORMATION_SPEED_mem (α := α)).1.le
    rw [TRANSFORMATION_SPEED] at this ⊢
    linarith
  have h2 : (-1 : α) ≤ (dir : α) * ROTATION_SPEED := by
    have := mul_le_mul_of_nonneg_right hd (ROTATION_SPEED_mem (α := α)).1.le
    rw [ROTATION_SPEED] at this ⊢
    linarith
  have k1 : (step_animation dir s).t_transformation =
      Int.fract (s.t_transformation + (dir : α) * (4 / 1000)) := by
    simp only [step_animation]
    rw [wrap_eq_fract (by linarith [ht.1]), TRANSFORMATION_SPEED]
  have k2 : (step_animation dir s).t_rotation =
      Int.fract (s.t_rotation + (dir : α) * (17 / 10000)) := by
    simp only [step_animation]
    rw [wrap_eq_fract (by linarith [hr.1]), ROTATION_SPEED]
  rw [k1, k2]
  exact ⟨⟨Int.fract_nonneg _, Int.fract_lt_one _⟩, ⟨Int.fract_nonneg _, Int.fract_lt_one _⟩,
    is_wrap_of_fract _, is_wrap_of_fract _⟩

/-- C18 (amended), at the bound `dir = -250` from the initial state: the transformation
progress is `0` and the rotation progress `0.575`. -/
theorem step_animation_in_range_of_ge_witness :
    (step_animation (-250) (initial_state : AnimationState ℚ)).t_transformation = 0 ∧
    (step_animation (-250) (initial_state : AnimationState ℚ)).t_rotation = 575 / 1000 ∧
    (0 ≤ (step_animation (-250) (initial_state : AnimationState ℚ)).t_transformation ∧
      (step_animation (-250) (initial_state : AnimationState ℚ)).t_transformation < 1) :=
  ⟨by decide!, by decide!,
   (step_animation_in_range_of_ge (initial_state : AnimationState ℚ) (-250) (by decide)
      ⟨by decide!, by decide!⟩ ⟨by decide!, by decide!⟩).1⟩

/-- C18 (the claim as written fails): from the initial state, whose scalars `0` lie in
`[0, 1)`, `step_animation(-300)` leaves the transformation progress at `-0.2` and
`step_animation(-251)` at `-0.004`, outside `[0, 1)`; `step_animation(-589)` gives the rotation
progress `-0.0013`. -/
theorem step_animation_multi_frame_out_of_range :
    (step_animation (-300) (initial_state : AnimationState ℚ)).t_transformation = -(1 / 5) ∧
    (step_animation (-251) (initial_state : AnimationState ℚ)).t_transformation = -(4 / 1000) ∧
    (step_animation (-589) (initial_state : AnimationState ℚ)).t_rotation = -(13 / 10000) ∧
    ((0 ≤ (initial_state : AnimationState ℚ).t_transformation ∧
        (initial_state : AnimationState ℚ).t_transformation < 1) ∧
      (0 ≤ (initial_state : AnimationState ℚ).t_rotation ∧
        (initial_state : AnimationState ℚ).t_rotation < 1)) ∧
    ¬ (0 ≤ (step_animation (-300) (initial_state : AnimationState ℚ)).t_transformation ∧
        (step_animation (-300) (initial_state : AnimationState ℚ)).t_transformation < 1) ∧
    ¬ (0 ≤ (step_animation (-251) (initial_state : AnimationState ℚ)).t_transformation ∧
        (step_animation (-251) (initial_state : AnimationState ℚ)).t_transformation < 1) := by
  decide!

/-! ### End pose -/

theorem end_vertices_eq_relabel (a b x : α) (i : Fin 16) :
    end_vertices a b x i = rest_vertices a b (relabel i) := by
  have h : end_vertices a b x = rest_table a b ∘ relabel := by
    have : end_vertices a b x =
      ![ (b, b, b), (-b, b, b), (b, b, -b), (-b, b, -b),
         (b, -b, b), (-b, -b, b), (b, -b, -b), (-b, -b, -b),
         (a, a, a), (-a, a, a), (a, a, -a), (-a, a, -a),
         (a, -a, a), (-a, -a, a), (a, -a, -a), (-a, -a, -a) ] := by
      have e1 : b + x + (-b - x - b) = -b := by ring
      have e2 : -b + x + (-a - x + b) = -a := by ring
      simp [end_vertices, vertices, transit_s, transit_x, e1, e2]
    rw [this]
    funext j
    fin_cases j <;> rfl
  rw [h, rest_vertices_eq]
  rfl

theorem relabel_bijective : Function.Bijective relabel := by decide

theorem joined_relabel : ∀ i j : Fin 16, i ≠ j → (joined i j ↔ joined (relabel i) (relabel j)) := by
  decide

/-- C19: the end pose of the morph is the start pose relabelled.  For all `a`, `b` and every
`x`, vertex `i` of the array at `k1 = 1`, `k2 = 1` sits where vertex `σ i` sat at rest
(`k1 = 0`, `k2 = 0`, `x = 0`), with `σ i = i + 1` for even `i < 8`, `i + 8` for odd `i < 8`,
`i - 8` for even `i ≥ 8`, `i - 1` for odd `i ≥ 8`; `σ` is a permutation that maps the edges
joining distinct vertices onto themselves, so the segments drawn for those edges at the end
pose are the segments drawn at rest. -/
theorem end_pose_is_relabelled_rest_pose (a b x : α) :
    (∀ i : Fin 16, end_vertices a b x i = rest_vertices a b (relabel i)) ∧
    (∀ i : Fin 16, relabel i =
      if i.val < 8 then (if i.val % 2 = 0 then Fin.ofNat (i.val + 1) else Fin.ofNat (i.val + 8))
      else (if i.val % 2 = 0 then Fin.ofNat (i.val - 8) else Fin.ofNat (i.val - 1))) ∧
    Function.Bijective relabel ∧
    (∀ i j : Fin 16, i ≠ j → (joined i j ↔ joined (relabel i) (relabel j))) ∧
    drawn_segments (end_vertices a b x) = drawn_segments (rest_vertices a b) := by
  refine ⟨end_vertices_eq_relabel a b x, fun i => rfl, relabel_bijective, joined_relabel, ?_⟩
  ext seg
  simp only [drawn_segments, Set.mem_setOf_eq]
  constructor
  · rintro ⟨i, j, hij, hj, rfl⟩
    exact ⟨relabel i, relabel j, fun h => hij (relabel_bijective.1 h),
      (joined_relabel i j hij).mp hj,
      by rw [end_vertices_eq_relabel, end_vertices_eq_relabel]⟩
  · rintro ⟨i, j, hij, hj, rfl⟩
    obtain ⟨i', rfl⟩ := relabel_bijective.2 i
    obtain ⟨j', rfl⟩ := relabel_bijective.2 j
    have hne : i' ≠ j' := fun h => hij (by rw [h])
    exact ⟨i', j', hne, (joined_relabel i' j' hne).mpr hj,
      by rw [end_vertices_eq_relabel, end_vertices_eq_relabel]⟩

/-- C19, at the edge `{0, 2}`: `σ` sends it to the edge `{1, 3}`. -/
theorem end_pose_is_relabelled_rest_pose_witness :
    (0 : Fin 16) ≠ 2 ∧ relabel 0 = 1 ∧ relabel 2 = 3 ∧ joined 0 2 ∧ joined 1 3 :=
  ⟨by decide, by decide, by decide, by decide,
   ((end_pose_is_relabelled_rest_pose (1 / 2 : ℚ) (1 / 5) 0).2.2.2.1 0 2 (by decide)).mp
     (by decide)⟩

/-! ### Secondary fold -/

theorem set_parameters_k2_eq (t : ℝ) :
    (set_parameters Real.sin Real.pi t).k2 =
      if ease_quad_in_out t < 1 / 4 then 0
      else trigonometric_scale (Real.sin (k2_sin_argument Real.pi (ease_quad_in_out t))) := by
  simp only [set_parameters, k2_sin_argument]
  split_ifs <;> rfl

theorem k2_sin_argument_mem {u : ℝ} (hlo : 1 / 4 ≤ u) (hhi : u ≤ 1) :
    -(Real.pi / 2) ≤ k2_sin_argument Real.pi u ∧
    k2_sin_argument Real.pi u ≤ Real.pi / 4 + 3 / 4 := by
  have hpi := Real.pi_pos
  unfold k2_sin_argument
  constructor
  · nlinarith [mul_nonneg (by linarith : (0 : ℝ) ≤ Real.pi + 1) (sub_nonneg.mpr hlo)]
  · nlinarith [mul_nonneg (by linarith : (0 : ℝ) ≤ Real.pi + 1) (sub_nonneg.mpr hhi)]

theorem k2_sin_argument_bound_lt : Real.pi / 4 + 3 / 4 < Real.pi / 2 := by
  have := Real.pi_gt_three
  linarith

theorem k2_sin_argument_mono {u v : ℝ} (h : u ≤ v) :
    k2_sin_argument Real.pi u ≤ k2_sin_argument Real.pi v := by
  have hpi := Real.pi_pos
  unfold k2_sin_argument
  nlinarith [mul_nonneg (by linarith : (0 : ℝ) ≤ Real.pi + 1) (sub_nonneg.mpr h)]

theorem sin_k2_argument_mono {u v : ℝ} (hlo : 1 / 4 ≤ u) (h : u ≤ v) (hhi : v ≤ 1) :
    Real.sin (k2_sin_argument Real.pi u) ≤ Real.sin (k2_sin_argument Real.pi v) := by
  have hu := k2_sin_argument_mem hlo (h.trans hhi)
  have hv := k2_sin_argument_mem (hlo.trans h) hhi
  have hb := k2_sin_argument_bound_lt
  exact Real.strictMonoOn_sin.monotoneOn ⟨hu.1, by linarith⟩ ⟨hv.1, by linarith⟩
    (k2_sin_argument_mono h)

theorem set_parameters_k2_mono {s t : ℝ} (h0 : 0 ≤ s) (hst : s ≤ t) (h1 : t ≤ 1) :
    (set_parameters Real.sin Real.pi s).k2 ≤ (set_parameters Real.sin Real.pi t).k2 := by
  have hm := ease_quad_in_out_mono h0 hst h1
  have ht1 : ease_quad_in_out t ≤ 1 := ease_quad_in_out_le_one (h0.trans hst)
  rw [set_parameters_k2_eq, set_parameters_k2_eq]
  split_ifs with hs ht ht
  · exact le_refl 0
  · exact (trigonometric_scale_mem (Real.neg_one_le_sin _) (Real.sin_le_one _)).1
  · exact absurd (lt_of_le_of_lt hm ht) hs
  · have := sin_k2_argument_mono (not_lt.mp hs) hm ht1
    unfold trigonometric_scale
    linarith

/-- C20: the secondary fold never completes.  For every raw progress `t` in `[0, 1]` the `k2`
returned by `set_parameters` is `< 1`: on the branch that computes it the sine argument
`(π + 1)(t′ - 0.25) - π/2` lies in `[-π/2, π/4 + 3/4]`, and `π/4 + 3/4 < π/2`.  Moreover `k2`
is non-decreasing in `t`, bounded by its value `(1 + sin (π/4 + 3/4))/2 < 1` at `t = 1`, while
`k1 = 1` at `t = 1`. -/
theorem secondary_fold_never_completes (t : ℝ) (h0 : 0 ≤ t) (h1 : t ≤ 1) :
    (set_parameters Real.sin Real.pi t).k2 < 1 ∧
    (1 / 4 ≤ ease_quad_in_out t →
      (set_parameters Real.sin Real.pi t).k2 =
        trigonometric_scale (Real.sin (k2_sin_argument Real.pi (ease_quad_in_out t))) ∧
      -(Real.pi / 2) ≤ k2_sin_argument Real.pi (ease_quad_in_out t) ∧
      k2_sin_argument Real.pi (ease_quad_in_out t) ≤ Real.pi / 4 + 3 / 4) ∧
    Real.pi / 4 + 3 / 4 < Real.pi / 2 ∧
    (∀ s : ℝ, 0 ≤ s → s ≤ t →
      (set_parameters Real.sin Real.pi s).k2 ≤ (set_parameters Real.sin Real.pi t).k2) ∧
    (set_parameters Real.sin Real.pi t).k2 ≤ (1 + Real.sin (Real.pi / 4 + 3 / 4)) / 2 ∧
    (set_parameters Real.sin Real.pi 1).k2 = (1 + Real.sin (Real.pi / 4 + 3 / 4)) / 2 ∧
    (1 + Real.sin (Real.pi / 4 + 3 / 4)) / 2 < 1 ∧
    (set_parameters Real.sin Real.pi 1).k1 = 1 := by
  have hb := k2_sin_argument_bound_lt
  have hpi := Real.pi_pos
  have hsup : Real.sin (Real.pi / 4 + 3 / 4) < 1 := by
    rw [← Real.sin_pi_div_two]
    exact Real.strictMonoOn_sin ⟨by linarith, hb.le⟩ ⟨by linarith, le_refl _⟩ hb
  have hone : ease_quad_in_out (1 : ℝ) = 1 := by norm_num [ease_quad_in_out]
  have hk1 : (set_parameters Real.sin Real.pi 1).k2 =
      (1 + Real.sin (Real.pi / 4 + 3 / 4)) / 2 := by
    rw [set_parameters_k2_eq, hone, if_neg (by norm_num)]
    have : k2_sin_argument Real.pi 1 = Real.pi / 4 + 3 / 4 := by
      unfold k2_sin_argument; ring
    rw [this, trigonometric_scale, add_comm]
  have hle : (set_parameters Real.sin Real.pi t).k2 ≤
      (1 + Real.sin (Real.pi / 4 + 3 / 4)) / 2 :=
    hk1 ▸ set_parameters_k2_mono h0 h1 (le_refl 1)
  refine ⟨by linarith, ?_, hb, fun s hs hst => set_parameters_k2_mono hs hst h1, hle, hk1,
    by linarith, ?_⟩
  · intro h
    refine ⟨?_, k2_sin_argument_mem h (ease_quad_in_out_le_one h0)⟩
    rw [set_parameters_k2_eq, if_neg (not_lt.mpr h)]
  · simp only [set_parameters, hone]
    have : Real.pi * 1 - Real.pi / 2 = Real.pi / 2 := by ring
    split_ifs <;> simp only [this, Real.sin_pi_div_two, trigonometric_scale] <;> norm_num

/-- C20, at `t = 1`: `k2 < 1` while `k1 = 1`. -/
theorem secondary_fold_never_completes_witness :
    (0 : ℝ) ≤ 1 ∧ (set_parameters Real.sin Real.pi 1).k2 < 1 ∧
    (set_parameters Real.sin Real.pi 1).k1 = 1 :=
  ⟨zero_le_one, (secondary_fold_never_completes 1 zero_le_one (le_refl 1)).1,
   (secondary_fold_never_completes 1 zero_le_one (le_refl 1)).2.2.2.2.2.2.2⟩

/-! ### Phase boundary -/

theorem ease_quad_in_out_sqrt_two_div_four : ease_quad_in_out (Real.sqrt 2 / 4) = 1 / 4 := by
  have h2 : Real.sqrt 2 * Real.sqrt 2 = 2 := Real.mul_self_sqrt (by norm_num)
  have hlt : Real.sqrt 2 / 4 < 1 / 2 := by
    nlinarith [Real.sqrt_nonneg 2]
  simp only [ease_quad_in_out, if_pos hlt]
  nlinarith

theorem ease_quad_in_out_continuous : Continuous fun t : ℝ => ease_quad_in_out t := by
  have e : (fun t : ℝ => ease_quad_in_out t) =
      fun t => if (1 / 2 : ℝ) ≤ t then -2 * t * t + 4 * t - 1 else 2 * t * t := by
    funext t
    unfold ease_quad_in_out
    by_cases h : t < 1 / 2
    · rw [if_pos h, if_neg (not_le.mpr h)]
    · rw [if_neg h, if_pos (not_lt.mp h)]
  rw [e]
  refine Continuous.if_le (by fun_prop) (by fun_prop) continuous_const continuous_id ?_
  intro t ht
  have : t = 1 / 2 := ht.symm
  subst this
  norm_num

theorem set_parameters_x_continuous :
    Continuous fun t : ℝ => (set_parameters Real.sin Real.pi t).x := by
  have e : (fun t : ℝ => (set_parameters Real.sin Real.pi t).x) =
      fun t => if (1 / 4 : ℝ) ≤ ease_quad_in_out t then set_parameters.d
        else set_parameters.d * ease_quad_in_out t * 4 := by
    funext t
    simp only [set_parameters]
    by_cases h : ease_quad_in_out t < 1 / 4
    · rw [if_pos h, if_neg (not_le.mpr h)]
    · rw [if_neg h, if_pos (not_lt.mp h)]
  rw [e]
  have hc := ease_quad_in_out_continuous
  refine Continuous.if_le continuous_const (by fun_prop) continuous_const hc ?_
  intro t ht
  rw [← ht]
  ring

theorem set_parameters_k2_continuous :
    Continuous fun t : ℝ => (set_parameters Real.sin Real.pi t).k2 := by
  have e : (fun t : ℝ => (set_parameters Real.sin Real.pi t).k2) =
      fun t => if (1 / 4 : ℝ) ≤ ease_quad_in_out t then
          trigonometric_scale (Real.sin (k2_sin_argument Real.pi (ease_quad_in_out t)))
        else 0 := by
    funext t
    rw [set_parameters_k2_eq]
    by_cases h : ease_quad_in_out t < 1 / 4
    · rw [if_pos h, if_neg (not_le.mpr h)]
    · rw [if_neg h, if_pos (not_lt.mp h)]
  rw [e]
  have hc := ease_quad_in_out_continuous
  refine Continuous.if_le ?_ continuous_const continuous_const hc ?_
  · unfold trigonometric_scale k2_sin_argument
    fun_prop
  · intro t ht
    rw [← ht]
    have : k2_sin_argument Real.pi (1 / 4) = -(Real.pi / 2) := by
      unfold k2_sin_argument; ring
    rw [this, Real.sin_neg, Real.sin_pi_div_two]
    norm_num [trigonometric_scale]

/-- C6: continuity of `set_parameters` at the phase boundary.  Whenever the eased value
`t′ = ease_quad_in_out t` is at least `0.25` the held branch returns `x = d`; below `0.25` the
ramp branch returns `x = d·t′·4`, a formula whose value at `t′ = 0.25` is `d` as well; when
`t′ = 0.25` exactly, the returned `k2` is `trigonometric_scale (sin (-π/2))`, which is `0`, the
value `k2` has on the whole ramp branch.  Hence the returned `x` and `k2` are continuous
functions of the raw progress `t`, neither jumps at the boundary: on the ramp branch `x` is
within `0.6·(0.25 - t′)` of the held value `d`. -/
theorem set_parameters_boundary (t : ℝ) (h : 1 / 4 ≤ ease_quad_in_out t) :
    (set_parameters Real.sin Real.pi t).x = set_parameters.d ∧
    (set_parameters.d : ℝ) * (1 / 4) * 4 = set_parameters.d ∧
    (ease_quad_in_out t = 1 / 4 →
      (set_parameters Real.sin Real.pi t).k2 = trigonometric_scale (Real.sin (-(Real.pi / 2))) ∧
      (set_parameters Real.sin Real.pi t).k2 = 0) ∧
    (∀ u : ℝ, ease_quad_in_out u < 1 / 4 → (set_parameters Real.sin Real.pi u).k2 = 0) ∧
    (∀ u : ℝ, ease_quad_in_out u < 1 / 4 →
      (set_parameters Real.sin Real.pi u).x = set_parameters.d * ease_quad_in_out u * 4) ∧
    (∀ u : ℝ, ease_quad_in_out u < 1 / 4 →
      |(set_parameters Real.sin Real.pi u).x - (set_parameters Real.sin Real.pi t).x| =
        (6 / 10) * (1 / 4 - ease_quad_in_out u)) ∧
    Continuous (fun u : ℝ => (set_parameters Real.sin Real.pi u).x) ∧
    Continuous (fun u : ℝ => (set_parameters Real.sin Real.pi u).k2) := by
  have hn : ¬ ease_quad_in_out t < 1 / 4 := not_lt.mpr h
  have hx : (set_parameters Real.sin Real.pi t).x = set_parameters.d := by
    simp only [set_parameters, if_neg hn]
  have hramp : ∀ u : ℝ, ease_quad_in_out u < 1 / 4 →
      (set_parameters Real.sin Real.pi u).x = set_parameters.d * ease_quad_in_out u * 4 := by
    intro u hu
    simp only [set_parameters, if_pos hu]
  refine ⟨hx, by ring, ?_, ?_, hramp, ?_, set_parameters_x_continuous,
    set_parameters_k2_continuous⟩
  · intro he
    have hk : (set_parameters Real.sin Real.pi t).k2 =
        trigonometric_scale (Real.sin (-(Real.pi / 2))) := by
      simp only [set_parameters, if_neg hn, he]
      norm_num
    refine ⟨hk, ?_⟩
    rw [hk, Real.sin_neg, Real.sin_pi_div_two]
    norm_num [trigonometric_scale]
  · intro u hu
    simp only [set_parameters, if_pos hu]
  · intro u hu
    rw [hramp u hu, hx, set_parameters.d_eq]
    have e : -(15 / 100 : ℝ) * ease_quad_in_out u * 4 - -(15 / 100) =
        (6 / 10) * (1 / 4 - ease_quad_in_out u) := by ring
    rw [e, abs_of_nonneg]
    nlinarith

/-- C6, at the boundary itself: the raw progress `t = √2/4` has eased value exactly `0.25`,
and there `x = d` and `k2 = 0`. -/
theorem set_parameters_boundary_witness :
    ease_quad_in_out (Real.sqrt 2 / 4) = 1 / 4 ∧
    (set_parameters Real.sin Real.pi (Real.sqrt 2 / 4)).x = set_parameters.d ∧
    (set_parameters Real.sin Real.pi (Real.sqrt 2 / 4)).k2 = 0 :=
  ⟨ease_quad_in_out_sqrt_two_div_four,
   (set_parameters_boundary (Real.sqrt 2 / 4) ease_quad_in_out_sqrt_two_div_four.ge).1,
   ((set_parameters_boundary (Real.sqrt 2 / 4) ease_quad_in_out_sqrt_two_div_four.ge).2.2.1
      ease_quad_in_out_sqrt_two_div_four).2⟩

end Tesseract
